import Mathlib

/-!
# FastFormat: the fixed-capacity C-string sink

A shallow embedding of `fastformat/sinks/c_string.hpp` (class `c_string_sink`
and the action shim `fmt_slices`) and a verification of the slice-delivery
contract stated for it.

Modelling conventions.

* `size_t` values are natural numbers; every `size_t` addition of the source
  is taken modulo `2 ^ size_bits`.
* A pointer into the sink's buffer is the index of the element it points to;
  the buffer is the list of the elements of the caller's array, and a store
  outside of it is undefined behaviour.
* A slice (`len`, `ptr`) is the list of the `len` characters it views.
* The headers that the sink includes but that are not part of the verified
  sources (`fastformat.h`, `standard_flags.hpp`, `contract.h`) are represented
  by the fields of `Env` and by the outcome `postcondition_violation`.
-/

namespace fastformat

/-- What the included headers fix for one build: the width of `size_t`, the
value of the enumerator `flags::ff_newLine`, and the slice returned by
`fastformat_getNewlineForPlatform()`. -/
structure Env where
  size_bits : Nat
  ff_newLine : Int
  newline : List Char
deriving DecidableEq, Repr

/-- The type `ff_string_slice_t` (a length and a pointer to that many read-only
characters), modelled by the characters the slice views. -/
structure ff_string_slice_t where
  ptr : List Char
deriving DecidableEq, Repr

/-- The member `len` of a slice. -/
def ff_string_slice_t.len (slice : ff_string_slice_t) : Nat := slice.ptr.length

/-- The function `fastformat_getNewlineForPlatform()`. -/
def fastformat_getNewlineForPlatform (E : Env) : ff_string_slice_t := ⟨E.newline⟩

/-- The test `flags::ff_newLine & flags` of the source, as a condition. -/
def newLineRequested (E : Env) (flags : Int) : Bool :=
  decide (Int.land E.ff_newLine flags ≠ 0)

/-- Addition of two `size_t` values. -/
def size_add (E : Env) (a b : Nat) : Nat := (a + b) % 2 ^ E.size_bits

namespace sinks

/-- The class `c_string_sink`: its three member variables. `m_buffer` holds the
elements of the array the constructor was given a pointer to. -/
structure c_string_sink where
  m_capacity : Nat
  m_len : Nat
  m_buffer : List Char
deriving DecidableEq, Repr

/-- The constructor `c_string_sink(size_type n, char_type* buffer)`. -/
def c_string_sink.ctor (n : Nat) (buffer : List Char) : c_string_sink :=
  { m_capacity := n, m_len := 0, m_buffer := buffer }

/-- The attribute `size()`. -/
def c_string_sink.size (self : c_string_sink) : Nat := self.m_len

/-- The attribute `capacity()`. -/
def c_string_sink.capacity (self : c_string_sink) : Nat := self.m_capacity

/-- How a call of `write` ends.

* `returned s`: the call returns `*this`, the sink being `s`;
* `out_of_range s`: `std::out_of_range` is thrown, the sink being `s`;
* `postcondition_violation s`: the enforcement at the end of `write` fires, the
  sink having been brought to `s` by then;
* `undefined_behaviour`: an access outside the buffer or outside `results`. -/
inductive Outcome where
  | returned (s : c_string_sink)
  | out_of_range (s : c_string_sink)
  | postcondition_violation (s : c_string_sink)
  | undefined_behaviour
deriving DecidableEq, Repr

/-- The store `*p = c` through a pointer to element `p` of the buffer. -/
def store (buf : List Char) (p : Nat) (c : Char) : Option (List Char) :=
  if p < buf.length then some (buf.set p c) else none

/-- The call `::memcpy(p, src, n * sizeof(char_type))` with `p` pointing to
element `p` of the buffer: the `n` elements from `p` on are replaced. The
destination range has to lie inside the buffer (for `n = 0`, `p` may be the
one-past-the-end pointer, but no pointer beyond it). -/
def memcpy (buf : List Char) (p : Nat) (src : List Char) : Option (List Char) :=
  if p + src.length ≤ buf.length then
    some (buf.take p ++ src ++ buf.drop (p + src.length))
  else none

/-- The loop `for(size_type i = 0; i < numResults; ++i)` of `write`, entered
with `remaining = numResults - i`; it yields the buffer and the cursor `p`. -/
def write_slices (results : List ff_string_slice_t) :
    Nat → Nat → List Char → Nat → Option (List Char × Nat)
  | 0, _, buf, p => some (buf, p)
  | remaining + 1, i, buf, p =>
    match results.get? i with
    | none => none
    | some slice =>
      match memcpy buf p slice.ptr with
      | none => none
      | some buf1 => write_slices results remaining (i + 1) buf1 (p + slice.len)

/-- The block `if(flags::ff_newLine & flags) { memcpy; p += crlf.len; }`. -/
def write_newline (E : Env) (flags : Int) (buf : List Char) (p : Nat) :
    Option (List Char × Nat) :=
  if newLineRequested E flags then
    let crlf := fastformat_getNewlineForPlatform E
    match memcpy buf p crlf.ptr with
    | none => none
    | some buf1 => some (buf1, p + crlf.len)
  else some (buf, p)

/-- The local `requiredSize` of `write`. -/
def requiredSize (E : Env) (self : c_string_sink) (cchTotal : Nat) (flags : Int) : Nat :=
  let crlf := fastformat_getNewlineForPlatform E
  size_add E (size_add E (size_add E self.size cchTotal)
    (if newLineRequested E flags then crlf.len else 0)) 1

/-- Modelled from the spec: the macro
`FASTFORMAT_CONTRACT_ENFORCE_POSTCONDITION_STATE_APPL_LAYER(expr, msg)` of
`fastformat/quality/contract.h`, which is not among the verified sources. The
specification requires that a violated cursor assertion "must abort the
operation loudly": when `expr` does not hold the call ends there (`violation`),
and otherwise execution goes on (`continuation`). -/
def FASTFORMAT_CONTRACT_ENFORCE_POSTCONDITION_STATE_APPL_LAYER (expr : Prop) [Decidable expr]
    (violation continuation : Outcome) : Outcome :=
  if expr then continuation else violation

/-- The member function
`write(size_type cchTotal, size_type numResults, ff_string_slice_t const* results, int flags)`. -/
def c_string_sink.write (E : Env) (self : c_string_sink) (cchTotal numResults : Nat)
    (results : List ff_string_slice_t) (flags : Int) : Outcome :=
  if requiredSize E self cchTotal flags > self.capacity then
    Outcome.out_of_range self
  else
    match write_slices results numResults 0 self.m_buffer self.size with
    | none => Outcome.undefined_behaviour
    | some (buf1, p1) =>
      match write_newline E flags buf1 p1 with
      | none => Outcome.undefined_behaviour
      | some (buf2, p2) =>
        match store buf2 p2 (Char.ofNat 0) with
        | none => Outcome.undefined_behaviour
        | some buf3 =>
          let p3 := p2 + 1
          let self1 : c_string_sink :=
            { self with m_buffer := buf3, m_len := size_add E self.m_len cchTotal }
          FASTFORMAT_CONTRACT_ENFORCE_POSTCONDITION_STATE_APPL_LAYER (p3 = self1.size + 1)
            (Outcome.postcondition_violation self1) (Outcome.returned self1)

/-- The action shim `fmt_slices(sink, flags, cchTotal, numResults, results)`. -/
def fmt_slices (E : Env) (sink : c_string_sink) (flags : Int) (cchTotal numResults : Nat)
    (results : List ff_string_slice_t) : Outcome :=
  sink.write E cchTotal numResults results flags

end sinks
end fastformat

namespace fastformat.sinks

/-! ## Vocabulary of the statements -/

/-- The characters of the first `numResults` slices of `results`, in order. -/
def slices_text (numResults : Nat) (results : List ff_string_slice_t) : List Char :=
  ((results.take numResults).map ff_string_slice_t.ptr).flatten

/-- The sum of the lengths of the first `numResults` slices of `results`. -/
def slices_length (numResults : Nat) (results : List ff_string_slice_t) : Nat :=
  ((results.take numResults).map ff_string_slice_t.len).sum

/-- The newline characters a call with these flags appends. -/
def newline_text (E : Env) (flags : Int) : List Char :=
  if newLineRequested E flags then E.newline else []

/-- Everything a call stores from the cursor on: slices, newline, terminator. -/
def written_text (E : Env) (numResults : Nat) (results : List ff_string_slice_t)
    (flags : Int) : List Char :=
  slices_text numResults results ++ newline_text E flags ++ [Char.ofNat 0]

/-- The sink that `write` has built when it reaches its postcondition. -/
def sink_after (E : Env) (self : c_string_sink) (cchTotal : Nat) (buf : List Char) :
    c_string_sink :=
  { self with m_buffer := buf, m_len := size_add E self.m_len cchTotal }

/-- The call ended with the capacity-exceeded failure. -/
def Outcome.capacity_exceeded : Outcome → Bool
  | Outcome.out_of_range _ => true
  | _ => false

/-- The sink a call leaves behind, when its behaviour is defined. -/
def Outcome.sink : Outcome → Option c_string_sink
  | Outcome.returned s => some s
  | Outcome.out_of_range s => some s
  | Outcome.postcondition_violation s => some s
  | Outcome.undefined_behaviour => none

/-- The arguments of one call of `write`. -/
structure write_args where
  cchTotal : Nat
  numResults : Nat
  results : List ff_string_slice_t
  flags : Int
deriving DecidableEq, Repr

/-- A sequence of calls of `write` on one sink, each of which returns: the sink
after the last call, and `none` as soon as a call ends in any other way. -/
def c_string_sink.write_all (E : Env) : c_string_sink → List write_args → Option c_string_sink
  | s, [] => some s
  | s, c :: cs =>
    match s.write E c.cchTotal c.numResults c.results c.flags with
    | Outcome.returned s1 => c_string_sink.write_all E s1 cs
    | _ => none

/-- A sequence of calls of `write` on one sink, where the caller goes on after a
call that returned and after one that threw `std::out_of_range`; a violated
postcondition is fatal and undefined behaviour leaves no sink to go on with. -/
def c_string_sink.write_seq (E : Env) : c_string_sink → List write_args → Option c_string_sink
  | s, [] => some s
  | s, c :: cs =>
    match s.write E c.cchTotal c.numResults c.results c.flags with
    | Outcome.returned s1 => c_string_sink.write_seq E s1 cs
    | Outcome.out_of_range s1 => c_string_sink.write_seq E s1 cs
    | _ => none

/-! ## The body of `write` in closed form -/

theorem slices_text_length (n : Nat) (rs : List ff_string_slice_t) :
    (slices_text n rs).length = slices_length n rs := by
  simp only [slices_text, slices_length, List.length_flatten, List.map_map]
  rfl

theorem memcpy_length {buf : List Char} {p : Nat} {src buf1 : List Char}
    (h : memcpy buf p src = some buf1) : buf1.length = buf.length := by
  unfold memcpy at h
  split at h
  · cases h
    simp
    omega
  · cases h

theorem memcpy_eq_none {buf : List Char} {p : Nat} {src : List Char}
    (h : buf.length < p + src.length) : memcpy buf p src = none := by
  unfold memcpy
  rw [if_neg (by omega)]

theorem memcpy_append {buf : List Char} {p : Nat} {a buf1 : List Char} (b : List Char)
    (h : memcpy buf p a = some buf1) :
    memcpy buf1 (p + a.length) b = memcpy buf p (a ++ b) := by
  have hl := memcpy_length h
  unfold memcpy at h
  split at h
  · rename_i hp
    cases h
    unfold memcpy
    rw [hl]
    simp only [List.length_append]
    by_cases hb : p + a.length + b.length ≤ buf.length
    · rw [if_pos hb, if_pos (by omega)]
      congr 1
      have h1 : (List.take p buf).length = p := by simp; omega
      have e1 : List.take (p + a.length) (List.take p buf ++ a ++ List.drop (p + a.length) buf)
          = List.take p buf ++ a := by
        have : p + a.length = (List.take p buf ++ a).length := by simp [h1]
        rw [this, List.take_left]
      have e2 : List.drop (p + a.length + b.length)
            (List.take p buf ++ a ++ List.drop (p + a.length) buf)
          = List.drop (p + (a.length + b.length)) buf := by
        have : p + a.length + b.length = (List.take p buf ++ a).length + b.length := by
          simp [h1]
        rw [this, List.drop_append, List.drop_drop]
        congr 1
        omega
      rw [e1, e2]
      simp
    · rw [if_neg hb, if_neg (by omega)]
  · cases h

theorem store_eq_memcpy (buf : List Char) (p : Nat) (c : Char) :
    store buf p c = memcpy buf p [c] := by
  unfold store memcpy
  by_cases h : p < buf.length
  · rw [if_pos h, if_pos (by simpa using h), List.set_eq_take_cons_drop c h]
    simp
  · rw [if_neg h, if_neg (by simp only [List.length_singleton]; omega)]

theorem slices_text_succ {rs : List ff_string_slice_t} {i : Nat} {slice : ff_string_slice_t}
    (h : rs[i]? = some slice) (n : Nat) :
    slices_text (n + 1) (rs.drop i) = slice.ptr ++ slices_text n (rs.drop (i + 1)) := by
  have hi : i < rs.length := by
    rcases Nat.lt_or_ge i rs.length with h1 | h1
    · exact h1
    · rw [List.getElem?_eq_none h1] at h
      cases h
  have hs : rs[i] = slice := by
    rw [List.getElem?_eq_getElem hi] at h
    exact Option.some.inj h
  rw [slices_text, List.drop_eq_getElem_cons hi, hs]
  simp [slices_text]

theorem slices_length_succ {rs : List ff_string_slice_t} {i : Nat} {slice : ff_string_slice_t}
    (h : rs[i]? = some slice) (n : Nat) :
    slices_length (n + 1) (rs.drop i) = slice.len + slices_length n (rs.drop (i + 1)) := by
  rw [← slices_text_length, slices_text_succ h, List.length_append, slices_text_length]
  rfl

theorem write_slices_eq (results : List ff_string_slice_t) (n i : Nat) (buf : List Char)
    (p : Nat) (hp : p ≤ buf.length) (hi : i ≤ results.length) :
    write_slices results n i buf p =
      if i + n ≤ results.length then
        (memcpy buf p (slices_text n (results.drop i))).map
          (fun b => (b, p + slices_length n (results.drop i)))
      else none := by
  induction n generalizing i buf p with
  | zero =>
    simp [write_slices, slices_text, slices_length, memcpy, hi, hp]
  | succ n ih =>
    rw [write_slices, List.get?_eq_getElem?]
    cases hg : results[i]? with
    | none =>
      have : results.length ≤ i := by
        rcases Nat.lt_or_ge i results.length with h1 | h1
        · rw [List.getElem?_eq_getElem h1] at hg
          cases hg
        · exact h1
      rw [if_neg (by omega)]
    | some slice =>
      have hil : i < results.length := by
        rcases Nat.lt_or_ge i results.length with h1 | h1
        · exact h1
        · rw [List.getElem?_eq_none h1] at hg
          cases hg
      simp only []
      rw [slices_text_succ hg, slices_length_succ hg]
      cases hm : memcpy buf p slice.ptr with
      | none =>
        have hlt : buf.length < p + slice.ptr.length := by
          unfold memcpy at hm
          split at hm
          · cases hm
          · omega
        rw [memcpy_eq_none (by simp only [List.length_append]; omega)]
        simp
      | some buf1 =>
        have hl := memcpy_length hm
        have hle : p + slice.ptr.length ≤ buf.length := by
          unfold memcpy at hm
          split at hm
          · assumption
          · cases hm
        simp only []
        rw [ih (i + 1) buf1 (p + slice.len) (by rw [hl]; exact hle) hil,
          show slice.len = slice.ptr.length from rfl, memcpy_append _ hm]
        have e : i + 1 + n = i + (n + 1) := by omega
        rw [e, Nat.add_assoc]

theorem write_slices_past_end (results : List ff_string_slice_t) (n i : Nat)
    (buf : List Char) (p : Nat) (hp : buf.length < p) :
    write_slices results n i buf p = none ∨ write_slices results n i buf p = some (buf, p) := by
  cases n with
  | zero => right; rfl
  | succ n =>
    left
    rw [write_slices]
    cases results.get? i with
    | none => rfl
    | some slice =>
      simp only []
      rw [memcpy_eq_none (by omega)]

theorem written_text_length (E : Env) (n : Nat) (rs : List ff_string_slice_t) (f : Int) :
    (written_text E n rs f).length
      = slices_length n rs + (newline_text E f).length + 1 := by
  simp [written_text, slices_text_length, Nat.add_assoc]

theorem memcpy_le {buf : List Char} {p : Nat} {src buf1 : List Char}
    (h : memcpy buf p src = some buf1) : p + src.length ≤ buf.length := by
  unfold memcpy at h
  split at h
  · assumption
  · cases h

/-- The newline block and the terminator store, after the slices went in. -/
theorem write_tail_eq (E : Env) (f : Int) {buf : List Char} {p : Nat} {a buf1 : List Char}
    (h : memcpy buf p a = some buf1) (K : List Char → Nat → Outcome) :
    (match write_newline E f buf1 (p + a.length) with
      | none => Outcome.undefined_behaviour
      | some (buf2, p2) =>
        match store buf2 p2 (Char.ofNat 0) with
        | none => Outcome.undefined_behaviour
        | some buf3 => K buf3 p2)
    = (match memcpy buf p (a ++ newline_text E f ++ [Char.ofNat 0]) with
      | none => Outcome.undefined_behaviour
      | some buf3 => K buf3 (p + a.length + (newline_text E f).length)) := by
  unfold write_newline newline_text
  by_cases hf : newLineRequested E f = true
  · simp only [hf, if_true, fastformat_getNewlineForPlatform, ff_string_slice_t.len]
    rw [memcpy_append _ h]
    cases hm : memcpy buf p (a ++ E.newline) with
    | none =>
      have hlt : buf.length < p + (a ++ E.newline).length := by
        unfold memcpy at hm
        split at hm
        · cases hm
        · omega
      rw [memcpy_eq_none (by simp only [List.length_append] at hlt ⊢; omega)]
    | some buf2 =>
      simp only []
      rw [store_eq_memcpy, Nat.add_assoc, ← List.length_append, memcpy_append _ hm]
  · have hf1 : newLineRequested E f = false := by simpa using hf
    simp only [hf1, Bool.false_eq_true, if_false, List.append_nil, List.length_nil,
      Nat.add_zero]
    rw [store_eq_memcpy, memcpy_append _ h]

/-- The member function `write` in closed form: after the capacity check, the
whole of `written_text` is copied to the buffer at index `size()`. -/
theorem write_eq (E : Env) (s : c_string_sink) (T n : Nat) (rs : List ff_string_slice_t)
    (f : Int) :
    s.write E T n rs f =
      if requiredSize E s T f > s.m_capacity then Outcome.out_of_range s
      else if n ≤ rs.length then
        match memcpy s.m_buffer s.m_len (written_text E n rs f) with
        | none => Outcome.undefined_behaviour
        | some buf =>
          if s.m_len + (written_text E n rs f).length = size_add E s.m_len T + 1 then
            Outcome.returned (sink_after E s T buf)
          else Outcome.postcondition_violation (sink_after E s T buf)
      else Outcome.undefined_behaviour := by
  unfold c_string_sink.write c_string_sink.capacity c_string_sink.size
    FASTFORMAT_CONTRACT_ENFORCE_POSTCONDITION_STATE_APPL_LAYER
  by_cases hc : requiredSize E s T f > s.m_capacity
  · rw [if_pos hc, if_pos hc]
  · rw [if_neg hc, if_neg hc]
    rcases Nat.lt_or_ge s.m_buffer.length s.m_len with hp | hp
    · have hnone : memcpy s.m_buffer s.m_len (written_text E n rs f) = none :=
        memcpy_eq_none (by omega)
      rw [hnone]
      have htail : (match write_newline E f s.m_buffer s.m_len with
          | none => Outcome.undefined_behaviour
          | some (buf2, p2) =>
            match store buf2 p2 (Char.ofNat 0) with
            | none => Outcome.undefined_behaviour
            | some buf3 =>
              if p2 + 1 = size_add E s.m_len T + 1 then
                Outcome.returned { s with m_buffer := buf3, m_len := size_add E s.m_len T }
              else Outcome.postcondition_violation
                { s with m_buffer := buf3, m_len := size_add E s.m_len T })
          = Outcome.undefined_behaviour := by
        unfold write_newline
        by_cases hf : newLineRequested E f = true
        · simp only [hf, if_true]
          rw [memcpy_eq_none (by omega)]
        · simp only [hf]
          simp [store, Nat.not_lt.mpr (Nat.le_of_lt hp)]
      rcases write_slices_past_end rs n 0 s.m_buffer s.m_len hp with h | h
      · rw [h]
        simp
      · rw [h]
        simp only []
        rw [htail]
        simp
    · rw [write_slices_eq rs n 0 s.m_buffer s.m_len hp (Nat.zero_le _)]
      simp only [Nat.zero_add, List.drop_zero]
      by_cases hn : n ≤ rs.length
      · rw [if_pos hn, if_pos hn]
        cases hm : memcpy s.m_buffer s.m_len (slices_text n rs) with
        | none =>
          have hlt : s.m_buffer.length < s.m_len + (slices_text n rs).length := by
            unfold memcpy at hm
            split at hm
            · cases hm
            · omega
          rw [memcpy_eq_none (by rw [written_text_length]; rw [slices_text_length] at hlt; omega)]
          rfl
        | some buf1 =>
          simp only [Option.map_some']
          rw [← slices_text_length]
          rw [write_tail_eq E f hm (fun buf3 p2 =>
            if p2 + 1 = size_add E s.m_len T + 1 then
              Outcome.returned { s with m_buffer := buf3, m_len := size_add E s.m_len T }
            else Outcome.postcondition_violation
              { s with m_buffer := buf3, m_len := size_add E s.m_len T })]
          unfold written_text
          cases memcpy s.m_buffer s.m_len
              (slices_text n rs ++ newline_text E f ++ [Char.ofNat 0]) with
          | none => rfl
          | some buf3 =>
            simp only [List.length_append, List.length_singleton, sink_after]
            simp only [Nat.add_assoc]
      · rw [if_neg hn, if_neg hn]

/-! ## Shared facts about `memcpy`, `requiredSize` and the ways `write` ends -/

theorem requiredSize_eq (E : Env) (s : c_string_sink) (T : Nat) (f : Int) :
    requiredSize E s T f
      = (s.m_len + T + (newline_text E f).length + 1) % 2 ^ E.size_bits := by
  unfold requiredSize size_add newline_text fastformat_getNewlineForPlatform
    ff_string_slice_t.len c_string_sink.size
  by_cases hf : newLineRequested E f = true
  · simp [hf, Nat.add_mod]
  · have hf1 : newLineRequested E f = false := by simpa using hf
    simp [hf1, Nat.add_mod]

theorem memcpy_drop {buf : List Char} {p : Nat} {src buf1 : List Char}
    (h : memcpy buf p src = some buf1) :
    buf1.drop p = src ++ buf.drop (p + src.length) := by
  have hle := memcpy_le h
  unfold memcpy at h
  rw [if_pos hle] at h
  cases h
  have h1 : (List.take p buf).length = p := by simp; omega
  rw [List.append_assoc, List.drop_append_eq_append_drop, h1, Nat.sub_self, List.drop_zero,
    List.drop_eq_nil_of_le (by rw [h1]), List.nil_append]

theorem memcpy_take {buf : List Char} {p : Nat} {src buf1 : List Char}
    (h : memcpy buf p src = some buf1) : buf1.take p = buf.take p := by
  have hle := memcpy_le h
  unfold memcpy at h
  rw [if_pos hle] at h
  cases h
  have h1 : (List.take p buf).length = p := by simp; omega
  rw [List.append_assoc, List.take_append_eq_append_take, h1, Nat.sub_self, List.take_zero,
    List.append_nil, List.take_take, Nat.min_self]

theorem memcpy_getElem?_inside {buf : List Char} {p : Nat} {src buf1 : List Char}
    (h : memcpy buf p src = some buf1) (k : Nat) (hk : k < src.length) :
    buf1[p + k]? = src[k]? := by
  rw [← List.getElem?_drop, memcpy_drop h, List.getElem?_append_left hk]

theorem memcpy_overwrite {buf : List Char} {p : Nat} {x buf1 : List Char} (y : List Char)
    (h : memcpy buf p x = some buf1) (hxy : x.length ≤ y.length) :
    memcpy buf1 p y = memcpy buf p y := by
  have hl := memcpy_length h
  have ht := memcpy_take h
  have hd := memcpy_drop h
  unfold memcpy
  rw [hl, ht]
  by_cases hy : p + y.length ≤ buf.length
  · rw [if_pos hy, if_pos hy]
    have e : List.drop (p + y.length) buf1 = List.drop (p + y.length) buf := by
      have h0 : List.drop y.length x = [] := List.drop_eq_nil_of_le hxy
      rw [← List.drop_drop, hd, List.drop_append_eq_append_drop, List.drop_drop, h0,
        List.nil_append]
      congr 1
      omega
    rw [e]
  · rw [if_neg hy, if_neg hy]

/-- What a call that returns has done. -/
theorem write_returned_inv {E : Env} {s : c_string_sink} {T n : Nat}
    {rs : List ff_string_slice_t} {f : Int} {s1 : c_string_sink}
    (h : s.write E T n rs f = Outcome.returned s1) :
    ¬ requiredSize E s T f > s.m_capacity ∧ n ≤ rs.length ∧
      ∃ buf, memcpy s.m_buffer s.m_len (written_text E n rs f) = some buf ∧
        s.m_len + (written_text E n rs f).length = size_add E s.m_len T + 1 ∧
        s1 = sink_after E s T buf := by
  rw [write_eq] at h
  split at h
  · cases h
  · rename_i hc
    refine ⟨hc, ?_⟩
    split at h
    · rename_i hn
      refine ⟨hn, ?_⟩
      split at h
      · cases h
      · rename_i buf hm
        split at h
        · rename_i hcur
          cases h
          exact ⟨buf, hm, hcur, rfl⟩
        · cases h
    · cases h

/-- What a call that passes the capacity check and leaves a sink has done. -/
theorem write_sink_inv {E : Env} {s : c_string_sink} {T n : Nat}
    {rs : List ff_string_slice_t} {f : Int} {s1 : c_string_sink}
    (hc : ¬ requiredSize E s T f > s.m_capacity)
    (h : (s.write E T n rs f).sink = some s1) :
    n ≤ rs.length ∧
      ∃ buf, memcpy s.m_buffer s.m_len (written_text E n rs f) = some buf ∧
        s1 = sink_after E s T buf := by
  rw [write_eq, if_neg hc] at h
  split at h
  · rename_i hn
    refine ⟨hn, ?_⟩
    split at h
    · cases h
    · rename_i buf hm
      split at h
      · simp only [Outcome.sink, Option.some.injEq] at h
        exact ⟨buf, hm, h.symm⟩
      · simp only [Outcome.sink, Option.some.injEq] at h
        exact ⟨buf, hm, h.symm⟩
  · cases h

/-- A call without the newline flag whose declared total is the true one and for
which the buffer has room returns. -/
theorem write_returns {E : Env} {s : c_string_sink} {T n : Nat}
    {rs : List ff_string_slice_t} {f : Int}
    (hf : newLineRequested E f = false) (hn : n ≤ rs.length)
    (hsum : slices_length n rs = T)
    (hroom : s.m_len + T + 1 ≤ s.m_capacity)
    (hbuf : s.m_capacity ≤ s.m_buffer.length)
    (hfit : s.m_len + T + 1 < 2 ^ E.size_bits) :
    ∃ buf, memcpy s.m_buffer s.m_len (written_text E n rs f) = some buf ∧
      s.write E T n rs f = Outcome.returned (sink_after E s T buf) := by
  have hnl : (newline_text E f).length = 0 := by simp [newline_text, hf]
  have hwl : (written_text E n rs f).length = T + 1 := by
    rw [written_text_length, hsum, hnl]
  have hreq : requiredSize E s T f = s.m_len + T + 1 := by
    rw [requiredSize_eq, hnl, Nat.add_zero, Nat.mod_eq_of_lt (by omega)]
  have hadd : size_add E s.m_len T = s.m_len + T := by
    unfold size_add
    rw [Nat.mod_eq_of_lt (by omega)]
  have hm : memcpy s.m_buffer s.m_len (written_text E n rs f)
      = some (s.m_buffer.take s.m_len ++ written_text E n rs f
          ++ s.m_buffer.drop (s.m_len + (written_text E n rs f).length)) := by
    unfold memcpy
    rw [if_pos (by rw [hwl]; omega)]
  refine ⟨_, hm, ?_⟩
  rw [write_eq, if_neg (by rw [hreq]; omega), if_pos hn, hm]
  simp only []
  rw [if_pos (by rw [hwl, hadd]; omega)]

theorem newline_text_length (E : Env) (f : Int) :
    (newline_text E f).length
      = if newLineRequested E f then (fastformat_getNewlineForPlatform E).len else 0 := by
  unfold newline_text fastformat_getNewlineForPlatform ff_string_slice_t.len
  split <;> rfl

theorem capacity_exceeded_iff (E : Env) (s : c_string_sink) (T n : Nat)
    (rs : List ff_string_slice_t) (f : Int) :
    (s.write E T n rs f).capacity_exceeded = true ↔ requiredSize E s T f > s.m_capacity := by
  rw [write_eq]
  split
  · rename_i hc
    simp [Outcome.capacity_exceeded, hc]
  · rename_i hc
    constructor
    · intro h
      split at h
      · split at h
        · cases h
        · split at h <;> cases h
      · cases h
    · intro h
      exact absurd h hc

/-- A call that returns adds exactly the declared total to the length, when the
length and the declared total are `size_t` values. -/
theorem write_returned_size {E : Env} {s : c_string_sink} {T n : Nat}
    {rs : List ff_string_slice_t} {f : Int} {s1 : c_string_sink}
    (h : s.write E T n rs f = Outcome.returned s1)
    (hL : s.m_len < 2 ^ E.size_bits) (hT : T < 2 ^ E.size_bits) :
    s1.m_len = s.m_len + T ∧ s1.m_len < 2 ^ E.size_bits := by
  obtain ⟨_, _, buf, _, hcur, rfl⟩ := write_returned_inv h
  rw [written_text_length] at hcur
  unfold sink_after
  simp only []
  unfold size_add at hcur ⊢
  have hpos : 0 < 2 ^ E.size_bits := Nat.pos_of_ne_zero (by positivity)
  have hlt := Nat.mod_lt (s.m_len + T) hpos
  refine ⟨?_, hlt⟩
  rcases Nat.lt_or_ge (s.m_len + T) (2 ^ E.size_bits) with hw | hw
  · exact Nat.mod_eq_of_lt hw
  · exfalso
    have h1 : (s.m_len + T) % 2 ^ E.size_bits = s.m_len + T - 2 ^ E.size_bits := by
      rw [Nat.mod_eq_sub_mod hw, Nat.mod_eq_of_lt (by omega)]
    omega

theorem write_all_size (E : Env) (calls : List write_args) :
    ∀ (s s1 : c_string_sink), s.m_len < 2 ^ E.size_bits →
      (∀ c ∈ calls, c.cchTotal < 2 ^ E.size_bits) →
      s.write_all E calls = some s1 →
      s1.m_len = s.m_len + (calls.map write_args.cchTotal).sum := by
  induction calls with
  | nil =>
    intro s s1 _ _ h
    simp only [c_string_sink.write_all, Option.some.injEq] at h
    subst h
    simp
  | cons c cs ih =>
    intro s s1 hL ht h
    rw [c_string_sink.write_all] at h
    split at h
    · rename_i s2 hw
      have hc := ht c (List.mem_cons_self _ _)
      obtain ⟨e, hL2⟩ := write_returned_size hw hL hc
      have := ih s2 s1 hL2 (fun d hd => ht d (List.mem_cons_of_mem _ hd)) h
      rw [this, e]
      simp [Nat.add_assoc]
    · cases h

theorem write_all_take (E : Env) (calls : List write_args) :
    ∀ (s s1 : c_string_sink), s.write_all E calls = some s1 →
      ∀ k, ∃ sk, s.write_all E (calls.take k) = some sk := by
  induction calls with
  | nil =>
    intro s s1 _ k
    exact ⟨s, by simp [c_string_sink.write_all]⟩
  | cons c cs ih =>
    intro s s1 h k
    cases k with
    | zero => exact ⟨s, by simp [c_string_sink.write_all]⟩
    | succ k =>
      rw [c_string_sink.write_all] at h
      split at h
      · rename_i s2 hw
        obtain ⟨sk, hk⟩ := ih s2 s1 h k
        refine ⟨sk, ?_⟩
        rw [List.take_succ_cons, c_string_sink.write_all, hw]
        exact hk
      · cases h

/-- One call of `write` on a sink whose buffer has `capacity()` elements and
whose length is within the capacity: the same holds of the sink it returns. -/
theorem write_returned_within_capacity {E : Env} {s : c_string_sink} {T n : Nat}
    {rs : List ff_string_slice_t} {f : Int} {s1 : c_string_sink}
    (h : s.write E T n rs f = Outcome.returned s1)
    (hbuf : s.m_buffer.length = s.m_capacity) :
    s1.m_buffer.length = s1.m_capacity ∧ s1.m_len ≤ s1.m_capacity := by
  obtain ⟨_, _, buf, hm, hcur, rfl⟩ := write_returned_inv h
  have hl := memcpy_length hm
  have hle := memcpy_le hm
  unfold sink_after
  simp only []
  constructor
  · rw [hl, hbuf]
  · omega

theorem write_seq_within_capacity (E : Env) (calls : List write_args) :
    ∀ (s s1 : c_string_sink), s.m_buffer.length = s.m_capacity → s.m_len ≤ s.m_capacity →
      s.write_seq E calls = some s1 →
      s1.m_buffer.length = s1.m_capacity ∧ s1.m_len ≤ s1.m_capacity := by
  induction calls with
  | nil =>
    intro s s1 hb hl h
    simp only [c_string_sink.write_seq, Option.some.injEq] at h
    subst h
    exact ⟨hb, hl⟩
  | cons c cs ih =>
    intro s s1 hb hl h
    rw [c_string_sink.write_seq] at h
    split at h
    · rename_i s2 hw
      obtain ⟨hb2, hl2⟩ := write_returned_within_capacity hw hb
      exact ih s2 s1 hb2 hl2 h
    · rename_i s2 hw
      have e : s2 = s := by
        rw [write_eq] at hw
        split at hw
        · cases hw
          rfl
        · split at hw
          · split at hw
            · cases hw
            · split at hw <;> cases hw
          · cases hw
      subst e
      exact ih s2 s1 hb hl h
    · cases h

/-- The buffer after the stores of a call without the newline flag. -/
theorem memcpy_written_without_newline {E : Env} {n : Nat} {rs : List ff_string_slice_t}
    {f : Int} {buf buf1 : List Char} {L T : Nat}
    (hf : newLineRequested E f = false) (hsum : slices_length n rs = T)
    (hm : memcpy buf L (written_text E n rs f) = some buf1) :
    (buf1.drop L).take T = slices_text n rs ∧ buf1[L + T]? = some (Char.ofNat 0) := by
  have hnl : newline_text E f = [] := by simp [newline_text, hf]
  have hlen : (slices_text n rs).length = T := by rw [slices_text_length, hsum]
  have hw : written_text E n rs f = slices_text n rs ++ [Char.ofNat 0] := by
    simp [written_text, hnl]
  rw [hw] at hm
  constructor
  · rw [memcpy_drop hm, List.append_assoc, ← hlen, List.take_left]
  · have := memcpy_getElem?_inside hm T (by simp [hlen])
    rw [this, ← hlen]
    simp

theorem slices_text_all_append (A B : List ff_string_slice_t) :
    slices_text (A ++ B).length (A ++ B) = slices_text A.length A ++ slices_text B.length B := by
  unfold slices_text
  rw [List.take_length, List.take_length, List.take_length, List.map_append,
    List.flatten_append]

/-- A call that passes the capacity check and stores more elements than the
buffer has behind the cursor has undefined behaviour. -/
theorem write_undefined_of_no_room {E : Env} {s : c_string_sink} {T n : Nat}
    {rs : List ff_string_slice_t} {f : Int}
    (hc : ¬ requiredSize E s T f > s.m_capacity)
    (hroom : s.m_buffer.length < s.m_len + slices_length n rs + (newline_text E f).length + 1) :
    s.write E T n rs f = Outcome.undefined_behaviour := by
  rw [write_eq, if_neg hc]
  split
  · rw [memcpy_eq_none (by rw [written_text_length]; omega)]
  · rfl

/-- A call whose required capacity, computed without wrap-around, is within the
capacity of a sink over a buffer of at least `capacity()` elements stores
inside the buffer only. -/
theorem write_defined_of_fit {E : Env} {s : c_string_sink} {T n : Nat}
    {rs : List ff_string_slice_t} {f : Int}
    (hn : n ≤ rs.length) (hsum : slices_length n rs = T)
    (hbuf : s.m_capacity ≤ s.m_buffer.length)
    (hfit : s.m_len + T + (newline_text E f).length + 1 < 2 ^ E.size_bits)
    (hc : ¬ requiredSize E s T f > s.m_capacity) :
    s.write E T n rs f ≠ Outcome.undefined_behaviour := by
  rw [requiredSize_eq, Nat.mod_eq_of_lt hfit] at hc
  have hm : memcpy s.m_buffer s.m_len (written_text E n rs f)
      = some (s.m_buffer.take s.m_len ++ written_text E n rs f
          ++ s.m_buffer.drop (s.m_len + (written_text E n rs f).length)) := by
    unfold memcpy
    rw [if_pos (by rw [written_text_length, hsum]; omega)]
  rw [write_eq, if_neg (by rw [requiredSize_eq, Nat.mod_eq_of_lt hfit]; exact hc), if_pos hn, hm]
  simp only []
  split <;> exact fun h => Outcome.noConfusion h

/-- With the newline flag set and a non-empty platform newline, a call whose
declared total is the sum of the slice lengths never returns: if it gets to
its postcondition, the cursor is beyond `buffer + size() + 1`. -/
theorem write_with_newline_does_not_return {E : Env} {s : c_string_sink} {T n : Nat}
    {rs : List ff_string_slice_t} {f : Int}
    (hf : newLineRequested E f = true) (hnl : E.newline ≠ [])
    (hsum : slices_length n rs = T) (s1 : c_string_sink) :
    s.write E T n rs f ≠ Outcome.returned s1 := by
  intro h
  obtain ⟨_, _, buf, _, hcur, _⟩ := write_returned_inv h
  rw [written_text_length, hsum] at hcur
  have hN : 0 < (newline_text E f).length := by
    simp only [newline_text, hf, if_true]
    exact List.length_pos.mpr hnl
  have hmod : size_add E s.m_len T ≤ s.m_len + T := Nat.mod_le _ _
  omega

theorem slices_length_replicate (k m : Nat) (c : Char) :
    slices_length k (List.replicate k ⟨List.replicate m c⟩) = k * m := by
  simp [slices_length, List.take_replicate, List.map_replicate, List.sum_replicate,
    ff_string_slice_t.len]

/-- The flags reach `write` through the test of the newline bit only. -/
theorem write_congr_flags (E : Env) (s : c_string_sink) (T n : Nat)
    (rs : List ff_string_slice_t) (f1 f2 : Int)
    (h : newLineRequested E f1 = newLineRequested E f2) :
    s.write E T n rs f1 = s.write E T n rs f2 := by
  unfold c_string_sink.write requiredSize write_newline
  rw [h]

theorem out_of_range_inv {E : Env} {s : c_string_sink} {T n : Nat}
    {rs : List ff_string_slice_t} {f : Int} {s1 : c_string_sink}
    (h : s.write E T n rs f = Outcome.out_of_range s1) :
    s1 = s ∧ requiredSize E s T f > s.m_capacity := by
  rw [write_eq] at h
  split at h
  · rename_i hc
    cases h
    exact ⟨rfl, hc⟩
  · split at h
    · split at h
      · cases h
      · split at h <;> cases h
    · cases h

/-- What a call that ends in the enforcement of its postcondition has done. -/
theorem write_violation_inv {E : Env} {s : c_string_sink} {T n : Nat}
    {rs : List ff_string_slice_t} {f : Int} {s1 : c_string_sink}
    (h : s.write E T n rs f = Outcome.postcondition_violation s1) :
    ¬ requiredSize E s T f > s.m_capacity ∧ n ≤ rs.length ∧
      ∃ buf, memcpy s.m_buffer s.m_len (written_text E n rs f) = some buf ∧
        s.m_len + (written_text E n rs f).length ≠ size_add E s.m_len T + 1 ∧
        s1 = sink_after E s T buf := by
  rw [write_eq] at h
  split at h
  · cases h
  · rename_i hc
    refine ⟨hc, ?_⟩
    split at h
    · rename_i hn
      refine ⟨hn, ?_⟩
      split at h
      · cases h
      · rename_i buf hm
        split at h
        · cases h
        · rename_i hcur
          cases h
          exact ⟨buf, hm, hcur, rfl⟩
    · cases h

/-- The elements before and behind the destination range of a `memcpy` keep
their values. -/
theorem memcpy_getElem?_outside {buf : List Char} {p : Nat} {src buf1 : List Char}
    (h : memcpy buf p src = some buf1) (i : Nat) (hi : i < p ∨ p + src.length ≤ i) :
    buf1[i]? = buf[i]? := by
  rcases hi with hi | hi
  · have h1 : (List.take p buf1)[i]? = buf1[i]? := by
      rw [List.getElem?_take, if_pos hi]
    have h2 : (List.take p buf)[i]? = buf[i]? := by
      rw [List.getElem?_take, if_pos hi]
    rw [← h1, memcpy_take h, h2]
  · have e : i = p + (i - p) := by omega
    have h1 : buf1[i]? = (List.drop p buf1)[i - p]? := by
      rw [List.getElem?_drop, ← e]
    rw [h1, memcpy_drop h, List.getElem?_append_right (by omega), List.getElem?_drop]
    congr 1
    omega

/-- The first `k` elements of what a `memcpy` copied, read behind the cursor. -/
theorem memcpy_drop_take {buf : List Char} {p : Nat} {x y buf1 : List Char}
    (h : memcpy buf p (x ++ y) = some buf1) :
    (buf1.drop p).take x.length = x := by
  rw [memcpy_drop h, List.append_assoc, List.take_left]

/-- What a `memcpy` copied after its first part `x`, read behind that part. -/
theorem memcpy_drop_drop_take {buf : List Char} {p : Nat} {x y z buf1 : List Char}
    (h : memcpy buf p (x ++ y ++ z) = some buf1) :
    (buf1.drop (p + x.length)).take y.length = y := by
  rw [← List.drop_drop, memcpy_drop h, List.append_assoc, List.append_assoc, List.drop_left,
    List.take_left]

/-- A sink whose buffer has a `size_t` number of elements: the sink a call leaves
after the capacity check has the length greater by the declared total, when the
declared total is the sum of the slice lengths. -/
theorem write_sink_size {E : Env} {s : c_string_sink} {T n : Nat}
    {rs : List ff_string_slice_t} {f : Int} {buf : List Char}
    (hsum : slices_length n rs = T)
    (hsz : s.m_buffer.length < 2 ^ E.size_bits)
    (hm : memcpy s.m_buffer s.m_len (written_text E n rs f) = some buf) :
    size_add E s.m_len T = s.m_len + T := by
  have hle := memcpy_le hm
  rw [written_text_length, hsum] at hle
  unfold size_add
  exact Nat.mod_eq_of_lt (by omega)

end fastformat.sinks

open fastformat fastformat.sinks

/-! ## The claims -/

/-- C1. Atomic failure of `write`: whatever the sink, the slices, the declared
total and the flags, a call that ends with the capacity-exceeded failure leaves
the sink with the length it had and with the character it had at every buffer
index (and with its capacity); nothing has been stored. -/
theorem write_failure_is_atomic (E : Env) (s : c_string_sink) (T n : Nat)
    (rs : List ff_string_slice_t) (f : Int) (s1 : c_string_sink)
    (h : s.write E T n rs f = Outcome.out_of_range s1) :
    s1.size = s.size ∧ (∀ i : Nat, s1.m_buffer[i]? = s.m_buffer[i]?) ∧
      s1.m_buffer.length = s.m_buffer.length ∧ s1.capacity = s.capacity := by
  rw [write_eq] at h
  split at h
  · cases h
    exact ⟨rfl, fun _ => rfl, rfl, rfl⟩
  · split at h
    · split at h
      · cases h
      · split at h <;> cases h
    · cases h

/-- Witness of C1: five characters declared for a three-element buffer that
already holds `"a"`. -/
theorem write_failure_is_atomic_witness :
    (⟨3, 1, ['a', Char.ofNat 0, 'z']⟩ : c_string_sink).write ⟨64, 1, ['\n']⟩ 5 1
        [⟨"hello".toList⟩] 0
      = Outcome.out_of_range ⟨3, 1, ['a', Char.ofNat 0, 'z']⟩ ∧
    ((⟨3, 1, ['a', Char.ofNat 0, 'z']⟩ : c_string_sink).size
        = (⟨3, 1, ['a', Char.ofNat 0, 'z']⟩ : c_string_sink).size ∧
      (∀ i : Nat, (['a', Char.ofNat 0, 'z'] : List Char)[i]?
        = (['a', Char.ofNat 0, 'z'] : List Char)[i]?) ∧
      (['a', Char.ofNat 0, 'z'] : List Char).length
        = (['a', Char.ofNat 0, 'z'] : List Char).length ∧
      (⟨3, 1, ['a', Char.ofNat 0, 'z']⟩ : c_string_sink).capacity
        = (⟨3, 1, ['a', Char.ofNat 0, 'z']⟩ : c_string_sink).capacity) :=
  ⟨by decide,
   write_failure_is_atomic ⟨64, 1, ['\n']⟩ ⟨3, 1, ['a', Char.ofNat 0, 'z']⟩ 5 1
     [⟨"hello".toList⟩] 0 ⟨3, 1, ['a', Char.ofNat 0, 'z']⟩ (by decide)⟩

/-- C2, as stated, fails: with ten elements of capacity and two characters
declared, the required capacity 3 does not exceed the capacity, and yet the
call does not succeed, because the one slice handed over has three characters
and the enforcement of the cursor position ends the call. -/
theorem write_passes_check_without_success :
    (c_string_sink.ctor 10 "xxxxxxxxxx".toList).size + 2 + 0 + 1 < 2 ^ 64 ∧
    ¬ ((c_string_sink.ctor 10 "xxxxxxxxxx".toList).size + 2 + 0 + 1
        > (c_string_sink.ctor 10 "xxxxxxxxxx".toList).capacity) ∧
    (c_string_sink.ctor 10 "xxxxxxxxxx".toList).write ⟨64, 1, ['\n']⟩ 2 1
        [⟨"abc".toList⟩] 0
      = Outcome.postcondition_violation ⟨10, 2, "abc\x00xxxxxx".toList⟩ := by
  decide

/-- C2, amended. When the quantities fit the size type without wrap-around,
`write` fails with capacity-exceeded if and only if
`size() + totalLength + (newline length if the flag is set, else 0) + 1`
is greater than `capacity()`; the decision is the same for every slice list.
Otherwise the capacity check is passed, and the call returns when moreover the
newline flag is clear, the declared total is the sum of the lengths of the
`numResults` slices, and the buffer has at least `capacity()` elements. -/
theorem write_fails_iff_required_exceeds (E : Env) (s : c_string_sink) (T n : Nat)
    (rs : List ff_string_slice_t) (f : Int)
    (hfit : s.size + T
        + (if newLineRequested E f then (fastformat_getNewlineForPlatform E).len else 0) + 1
        < 2 ^ E.size_bits) :
    ((s.write E T n rs f).capacity_exceeded = true ↔
      s.size + T
        + (if newLineRequested E f then (fastformat_getNewlineForPlatform E).len else 0) + 1
        > s.capacity) ∧
    (∀ (n2 : Nat) (rs2 : List ff_string_slice_t),
      (s.write E T n2 rs2 f).capacity_exceeded = (s.write E T n rs f).capacity_exceeded) ∧
    (¬ (s.size + T
        + (if newLineRequested E f then (fastformat_getNewlineForPlatform E).len else 0) + 1
        > s.capacity) →
      (s.write E T n rs f).capacity_exceeded = false ∧
      (newLineRequested E f = false → n ≤ rs.length → slices_length n rs = T →
        s.capacity ≤ s.m_buffer.length →
        ∃ s1, s.write E T n rs f = Outcome.returned s1)) := by
  rw [← newline_text_length] at hfit ⊢
  unfold c_string_sink.size c_string_sink.capacity at *
  have hreq : requiredSize E s T f = s.m_len + T + (newline_text E f).length + 1 := by
    rw [requiredSize_eq, Nat.mod_eq_of_lt hfit]
  have hiff : ∀ (n2 : Nat) (rs2 : List ff_string_slice_t),
      (s.write E T n2 rs2 f).capacity_exceeded = true ↔
        s.m_len + T + (newline_text E f).length + 1 > s.m_capacity := by
    intro n2 rs2
    rw [capacity_exceeded_iff, hreq]
  refine ⟨hiff n rs, ?_, ?_⟩
  · intro n2 rs2
    have h1 := hiff n2 rs2
    have h2 := hiff n rs
    cases hb : (s.write E T n rs f).capacity_exceeded with
    | true => exact h1.mpr (h2.mp hb)
    | false =>
      cases hb2 : (s.write E T n2 rs2 f).capacity_exceeded with
      | true =>
        have := h2.mpr (h1.mp hb2)
        rw [hb] at this
        cases this
      | false => rfl
  · intro hle
    constructor
    · cases hb : (s.write E T n rs f).capacity_exceeded with
      | true => exact absurd ((hiff n rs).mp hb) hle
      | false => rfl
    · intro hf hn hsum hbuf
      obtain ⟨buf, _, hw⟩ := write_returns hf hn hsum (by omega) hbuf (by omega)
      exact ⟨_, hw⟩

/-- Witness of C2 (amended): `"ab"` declared as two characters for an empty
sink of ten elements. -/
theorem write_fails_iff_required_exceeds_witness :
    (c_string_sink.ctor 10 "xxxxxxxxxx".toList).size + 2
        + (if newLineRequested ⟨64, 1, ['\n']⟩ 0
            then (fastformat_getNewlineForPlatform ⟨64, 1, ['\n']⟩).len else 0) + 1
        < 2 ^ 64 ∧
    (c_string_sink.ctor 10 "xxxxxxxxxx".toList).write ⟨64, 1, ['\n']⟩ 2 1
        [⟨"ab".toList⟩] 0
      = Outcome.returned ⟨10, 2, "ab\x00xxxxxxx".toList⟩ ∧
    ((c_string_sink.ctor 10 "xxxxxxxxxx".toList).write ⟨64, 1, ['\n']⟩ 2 1
        [⟨"ab".toList⟩] 0).capacity_exceeded = false :=
  ⟨by decide, by decide,
   ((write_fails_iff_required_exceeds ⟨64, 1, ['\n']⟩
      (c_string_sink.ctor 10 "xxxxxxxxxx".toList) 2 1 [⟨"ab".toList⟩] 0
      (by decide)).2.2 (by decide)).1⟩

/-- C3. Content of a successful write without the newline flag: when the lengths
of the slices sum to the declared total `T`, the flag is clear and the call
returns, the buffer holds the slices, concatenated in order, at the indices
`[L, L + T)`, where `L` was the length before the call, it holds the terminator
at index `L + T`, and `size()` is `L + T`. -/
theorem write_content_without_newline (E : Env) (s : c_string_sink) (T n : Nat)
    (rs : List ff_string_slice_t) (f : Int) (s1 : c_string_sink)
    (hf : newLineRequested E f = false)
    (hsum : slices_length n rs = T)
    (h : s.write E T n rs f = Outcome.returned s1) :
    (s1.m_buffer.drop s.size).take T = slices_text n rs ∧
      s1.m_buffer[s.size + T]? = some (Char.ofNat 0) ∧
      s1.size = s.size + T := by
  obtain ⟨_, _, buf, hm, hcur, rfl⟩ := write_returned_inv h
  have hnl : newline_text E f = [] := by simp [newline_text, hf]
  have hlen : (slices_text n rs).length = T := by rw [slices_text_length, hsum]
  have hw : written_text E n rs f = slices_text n rs ++ [Char.ofNat 0] := by
    simp [written_text, hnl]
  rw [hw] at hm hcur
  unfold c_string_sink.size sink_after
  simp only []
  refine ⟨?_, ?_, ?_⟩
  · rw [memcpy_drop hm, List.append_assoc, ← hlen, List.take_left]
  · have := memcpy_getElem?_inside hm T (by simp [hlen])
    rw [this, ← hlen]
    simp
  · simp only [List.length_append, List.length_singleton, hlen] at hcur
    omega

/-- Witness of C3: the slices `"ab"`, `"cd"` with `T = 4` into an empty sink of
five elements give the buffer `"abcd\0"` and `size() = 4`. -/
theorem write_content_without_newline_witness :
    (c_string_sink.ctor 5 "?????".toList).write ⟨64, 1, ['\n']⟩ 4 2
        [⟨"ab".toList⟩, ⟨"cd".toList⟩] 0
      = Outcome.returned ⟨5, 4, "abcd\x00".toList⟩ ∧
    (("abcd\x00".toList.drop (c_string_sink.ctor 5 "?????".toList).size).take 4
        = slices_text 2 [⟨"ab".toList⟩, ⟨"cd".toList⟩] ∧
      "abcd\x00".toList[(c_string_sink.ctor 5 "?????".toList).size + 4]?
        = some (Char.ofNat 0) ∧
      (⟨5, 4, "abcd\x00".toList⟩ : c_string_sink).size
        = (c_string_sink.ctor 5 "?????".toList).size + 4) :=
  ⟨by decide,
   write_content_without_newline ⟨64, 1, ['\n']⟩ (c_string_sink.ctor 5 "?????".toList) 4 2
     [⟨"ab".toList⟩, ⟨"cd".toList⟩] 0 ⟨5, 4, "abcd\x00".toList⟩ (by decide) (by decide)
     (by decide)⟩

/-- C4. Content of a write with the newline flag: for a buffer whose element
count is a `size_t` value, slices whose lengths sum to the declared total `T`
and a platform newline `nl` of length `N`, a call with the flag set that passes
the capacity check leaves, whenever it leaves a sink at all, the slices at
`[L, L + T)`, `nl` at `[L + T, L + T + N)`, the terminator at `L + T + N` and
`size() = L + T`; and it does leave a sink when the buffer has the
`L + T + N + 1` elements that are stored into. -/
theorem write_content_with_newline (E : Env) (s : c_string_sink) (T n : Nat)
    (rs : List ff_string_slice_t) (f : Int)
    (hf : newLineRequested E f = true)
    (hsum : slices_length n rs = T)
    (hsz : s.m_buffer.length < 2 ^ E.size_bits)
    (hchk : ¬ requiredSize E s T f > s.capacity) :
    (∀ s1, (s.write E T n rs f).sink = some s1 →
      (s1.m_buffer.drop s.size).take T = slices_text n rs ∧
      (s1.m_buffer.drop (s.size + T)).take (fastformat_getNewlineForPlatform E).len
        = (fastformat_getNewlineForPlatform E).ptr ∧
      s1.m_buffer[s.size + T + (fastformat_getNewlineForPlatform E).len]?
        = some (Char.ofNat 0) ∧
      s1.size = s.size + T) ∧
    (n ≤ rs.length →
      s.size + T + (fastformat_getNewlineForPlatform E).len + 1 ≤ s.m_buffer.length →
      ∃ s1, (s.write E T n rs f).sink = some s1) := by
  unfold c_string_sink.capacity at hchk
  unfold c_string_sink.size fastformat_getNewlineForPlatform ff_string_slice_t.len
  simp only []
  have hnl : newline_text E f = E.newline := by simp [newline_text, hf]
  have hlen : (slices_text n rs).length = T := by rw [slices_text_length, hsum]
  have hw : written_text E n rs f = slices_text n rs ++ (E.newline ++ [Char.ofNat 0]) := by
    simp [written_text, hnl]
  constructor
  · intro s1 h
    obtain ⟨_, buf, hm, rfl⟩ := write_sink_inv hchk h
    have hle := memcpy_le hm
    rw [hw] at hm hle
    simp only [List.length_append, List.length_singleton, hlen] at hle
    unfold sink_after
    simp only []
    have hd := memcpy_drop hm
    refine ⟨?_, ?_, ?_, ?_⟩
    · rw [hd, List.append_assoc, ← hlen, List.take_left]
    · rw [← List.drop_drop, hd, List.append_assoc, ← hlen,
        List.drop_left, List.append_assoc, List.take_left]
    · have := memcpy_getElem?_inside hm (T + E.newline.length)
        (by simp only [List.length_append, List.length_singleton, hlen]; omega)
      rw [← Nat.add_assoc] at this
      rw [this, List.getElem?_append_right (by omega), hlen, Nat.add_sub_cancel_left]
      simp
    · unfold size_add
      rw [Nat.mod_eq_of_lt (by omega)]
  · intro hn hroom
    have hm : memcpy s.m_buffer s.m_len (written_text E n rs f)
        = some (s.m_buffer.take s.m_len ++ written_text E n rs f
            ++ s.m_buffer.drop (s.m_len + (written_text E n rs f).length)) := by
      unfold memcpy
      rw [if_pos (by
        rw [hw]
        simp only [List.length_append, List.length_singleton, hlen]
        omega)]
    rw [write_eq, if_neg hchk, if_pos hn, hm]
    simp only []
    split
    · exact ⟨_, rfl⟩
    · exact ⟨_, rfl⟩

/-- Witness of C4: `"ab"` with the newline flag into an empty sink of ten
elements leaves `"ab\n\0"` and `size() = 2`. -/
theorem write_content_with_newline_witness :
    (c_string_sink.ctor 10 "xxxxxxxxxx".toList).write ⟨64, 1, ['\n']⟩ 2 1 [⟨"ab".toList⟩] 1
      = Outcome.postcondition_violation ⟨10, 2, "ab\n\x00xxxxxx".toList⟩ ∧
    (("ab\n\x00xxxxxx".toList.drop (c_string_sink.ctor 10 "xxxxxxxxxx".toList).size).take 2
        = slices_text 1 [⟨"ab".toList⟩] ∧
      ("ab\n\x00xxxxxx".toList.drop ((c_string_sink.ctor 10 "xxxxxxxxxx".toList).size + 2)).take
          (fastformat_getNewlineForPlatform ⟨64, 1, ['\n']⟩).len
        = (fastformat_getNewlineForPlatform ⟨64, 1, ['\n']⟩).ptr ∧
      "ab\n\x00xxxxxx".toList[(c_string_sink.ctor 10 "xxxxxxxxxx".toList).size + 2
          + (fastformat_getNewlineForPlatform ⟨64, 1, ['\n']⟩).len]?
        = some (Char.ofNat 0) ∧
      (⟨10, 2, "ab\n\x00xxxxxx".toList⟩ : c_string_sink).size
        = (c_string_sink.ctor 10 "xxxxxxxxxx".toList).size + 2) :=
  ⟨by decide,
   (write_content_with_newline ⟨64, 1, ['\n']⟩ (c_string_sink.ctor 10 "xxxxxxxxxx".toList)
      2 1 [⟨"ab".toList⟩] 1 (by decide) (by decide) (by decide) (by decide)).1
      ⟨10, 2, "ab\n\x00xxxxxx".toList⟩ (by decide)⟩

/-- C5, at the failing input: the declared total 2 is the length of the one
slice `"ab"`, the capacity check is passed, and with the newline flag set the
cursor ends at index 4 while `size() + 1` is 3, so that the enforcement at the
end of `write` fires. -/
theorem write_cursor_mismatch_with_newline :
    slices_length 1 [⟨"ab".toList⟩] = 2 ∧
    ¬ (requiredSize ⟨64, 1, ['\n']⟩ (c_string_sink.ctor 10 "xxxxxxxxxx".toList) 2 1
        > (c_string_sink.ctor 10 "xxxxxxxxxx".toList).capacity) ∧
    (c_string_sink.ctor 10 "xxxxxxxxxx".toList).write ⟨64, 1, ['\n']⟩ 2 1 [⟨"ab".toList⟩] 1
      = Outcome.postcondition_violation ⟨10, 2, "ab\n\x00xxxxxx".toList⟩ := by
  decide

/-- C6. Size accounting over sequences of writes: for a freshly constructed sink
and every finite sequence of calls of `write` that all return, declared totals
being `size_t` values, the sink after the first `k` calls exists and its
`size()` is the sum of the totals declared in these `k` calls, whatever the
flags of the calls are. -/
theorem size_is_sum_of_declared_totals (E : Env) (n : Nat) (buffer : List Char)
    (calls : List write_args) (s_end : c_string_sink)
    (htyped : ∀ c ∈ calls, c.cchTotal < 2 ^ E.size_bits)
    (h : (c_string_sink.ctor n buffer).write_all E calls = some s_end) :
    (c_string_sink.ctor n buffer).size = 0 ∧
    ∀ k, k ≤ calls.length →
      ∃ sk, (c_string_sink.ctor n buffer).write_all E (calls.take k) = some sk ∧
        sk.size = ((calls.take k).map write_args.cchTotal).sum := by
  refine ⟨rfl, ?_⟩
  intro k _
  obtain ⟨sk, hk⟩ := write_all_take E calls _ _ h k
  refine ⟨sk, hk, ?_⟩
  have hpos : 0 < 2 ^ E.size_bits := Nat.pos_of_ne_zero (by positivity)
  have := write_all_size E (calls.take k) (c_string_sink.ctor n buffer) sk hpos
    (fun c hc => htyped c (List.mem_of_mem_take hc)) hk
  unfold c_string_sink.size
  rw [this]
  simp [c_string_sink.ctor]

/-- Witness of C6: `"foo"` with the newline flag clear, then `"bar"`, into a
fresh sink of seven elements. -/
theorem size_is_sum_of_declared_totals_witness :
    (c_string_sink.ctor 7 "???????".toList).write_all ⟨64, 1, ['\n']⟩
        [⟨3, 1, [⟨"foo".toList⟩], 0⟩, ⟨3, 1, [⟨"bar".toList⟩], 0⟩]
      = some ⟨7, 6, "foobar\x00".toList⟩ ∧
    ∃ sk, (c_string_sink.ctor 7 "???????".toList).write_all ⟨64, 1, ['\n']⟩
        (([⟨3, 1, [⟨"foo".toList⟩], 0⟩, ⟨3, 1, [⟨"bar".toList⟩], 0⟩] : List write_args).take 1)
          = some sk ∧
      sk.size = ((([⟨3, 1, [⟨"foo".toList⟩], 0⟩, ⟨3, 1, [⟨"bar".toList⟩], 0⟩] :
        List write_args).take 1).map write_args.cchTotal).sum :=
  ⟨by decide,
   (size_is_sum_of_declared_totals ⟨64, 1, ['\n']⟩ 7 "???????".toList
      [⟨3, 1, [⟨"foo".toList⟩], 0⟩, ⟨3, 1, [⟨"bar".toList⟩], 0⟩] ⟨7, 6, "foobar\x00".toList⟩
      (by decide) (by decide)).2 1 (by decide)⟩

/-- C7. Length-within-capacity invariant: from the construction
`c_string_sink(n, buffer)` over a buffer of `n` elements, every sequence of calls
of `write`, returning or failing with capacity-exceeded, with any slices, any
declared total and any flags, leads to a sink with `0 ≤ size() ≤ capacity()`. -/
theorem size_within_capacity (E : Env) (n : Nat) (buffer : List Char)
    (calls : List write_args) (s1 : c_string_sink)
    (hbuf : buffer.length = n)
    (h : (c_string_sink.ctor n buffer).write_seq E calls = some s1) :
    0 ≤ s1.size ∧ s1.size ≤ s1.capacity := by
  have := write_seq_within_capacity E calls (c_string_sink.ctor n buffer) s1 hbuf
    (Nat.zero_le _) h
  exact ⟨Nat.zero_le _, this.2⟩

/-- Witness of C7: a write that fits, then one that fails with capacity-exceeded,
then one with a declared total that fits again. -/
theorem size_within_capacity_witness :
    "???????".toList.length = 7 ∧
    (c_string_sink.ctor 7 "???????".toList).write_seq ⟨64, 1, ['\n']⟩
        [⟨3, 1, [⟨"foo".toList⟩], 0⟩, ⟨9, 1, [⟨"overlong!".toList⟩], 0⟩,
          ⟨3, 1, [⟨"bar".toList⟩], 0⟩]
      = some ⟨7, 6, "foobar\x00".toList⟩ ∧
    (0 ≤ (⟨7, 6, "foobar\x00".toList⟩ : c_string_sink).size ∧
      (⟨7, 6, "foobar\x00".toList⟩ : c_string_sink).size
        ≤ (⟨7, 6, "foobar\x00".toList⟩ : c_string_sink).capacity) :=
  ⟨by decide, by decide,
   size_within_capacity ⟨64, 1, ['\n']⟩ 7 "???????".toList
     [⟨3, 1, [⟨"foo".toList⟩], 0⟩, ⟨9, 1, [⟨"overlong!".toList⟩], 0⟩,
       ⟨3, 1, [⟨"bar".toList⟩], 0⟩] ⟨7, 6, "foobar\x00".toList⟩ (by decide) (by decide)⟩

/-- C8. Capacity boundary: for every total `T` such that the capacity `T + 1` is
a `size_t` value and every slice list summing to `T`, a write without the
newline flag into an empty sink of capacity exactly `T + 1` returns, with the
slices in `[0, T)` and the terminator at the last buffer index
`T = capacity() - 1`; the same write into an empty sink of capacity exactly `T`
fails with capacity-exceeded. -/
theorem capacity_boundary (E : Env) (T n : Nat) (rs : List ff_string_slice_t) (f : Int)
    (bufA bufB : List Char)
    (hT : T + 1 < 2 ^ E.size_bits)
    (hf : newLineRequested E f = false)
    (hn : n ≤ rs.length) (hsum : slices_length n rs = T)
    (hA : bufA.length = T + 1) :
    (∃ s1, (c_string_sink.ctor (T + 1) bufA).write E T n rs f = Outcome.returned s1 ∧
      s1.m_buffer.take T = slices_text n rs ∧
      s1.m_buffer[T]? = some (Char.ofNat 0) ∧
      T = s1.capacity - 1 ∧ s1.m_buffer.length = s1.capacity ∧ s1.size = T) ∧
    (c_string_sink.ctor T bufB).write E T n rs f
      = Outcome.out_of_range (c_string_sink.ctor T bufB) := by
  constructor
  · obtain ⟨buf, hm, hw⟩ := @write_returns E (c_string_sink.ctor (T + 1) bufA) T n rs f
      hf hn hsum (by simp [c_string_sink.ctor]) (by simp [c_string_sink.ctor, hA])
      (by simpa [c_string_sink.ctor] using hT)
    refine ⟨_, hw, ?_⟩
    have hl := memcpy_length hm
    obtain ⟨h1, h2⟩ := memcpy_written_without_newline hf hsum hm
    simp only [c_string_sink.ctor, List.drop_zero, Nat.zero_add] at h1 h2 hl
    have hadd : size_add E 0 T = T := by
      unfold size_add
      rw [Nat.zero_add, Nat.mod_eq_of_lt (by omega)]
    simp only [sink_after, c_string_sink.ctor, c_string_sink.capacity, c_string_sink.size]
    exact ⟨h1, h2, by omega, by rw [hl, hA], hadd⟩
  · have hnl : (newline_text E f).length = 0 := by simp [newline_text, hf]
    rw [write_eq, if_pos]
    rw [requiredSize_eq, hnl]
    simp only [c_string_sink.ctor, Nat.zero_add, Nat.add_zero]
    rw [Nat.mod_eq_of_lt hT]
    omega

/-- Witness of C8: `"ab"`, `"cd"` into empty sinks of five and of four
elements. -/
theorem capacity_boundary_witness :
    (∃ s1, (c_string_sink.ctor (4 + 1) "?????".toList).write ⟨64, 1, ['\n']⟩ 4 2
          [⟨"ab".toList⟩, ⟨"cd".toList⟩] 0 = Outcome.returned s1 ∧
      s1.m_buffer.take 4 = slices_text 2 [⟨"ab".toList⟩, ⟨"cd".toList⟩] ∧
      s1.m_buffer[4]? = some (Char.ofNat 0) ∧
      4 = s1.capacity - 1 ∧ s1.m_buffer.length = s1.capacity ∧ s1.size = 4) ∧
    (c_string_sink.ctor 4 "????".toList).write ⟨64, 1, ['\n']⟩ 4 2
        [⟨"ab".toList⟩, ⟨"cd".toList⟩] 0
      = Outcome.out_of_range (c_string_sink.ctor 4 "????".toList) :=
  capacity_boundary ⟨64, 1, ['\n']⟩ 4 2 [⟨"ab".toList⟩, ⟨"cd".toList⟩] 0 "?????".toList
    "????".toList (by decide) (by decide) (by decide) (by decide) (by decide)

/-- C9. Sequential writes append: when `write(a, A)` and then `write(b, B)`, both
without the newline flag and with `a`, `b` the sums of the slice lengths, both
return, the single `write(a + b, A ++ B)` on the original sink returns as well,
with the very same sink (length and buffer). The content of the second write
starts at the index `size() + a` at which the first write had put its
terminator, and the final terminator is at the offset `size()` of the result. -/
theorem sequential_writes_append (E : Env) (s s1 s2 : c_string_sink) (a b : Nat)
    (A B : List ff_string_slice_t) (f : Int)
    (hf : newLineRequested E f = false)
    (hA : slices_length A.length A = a) (hB : slices_length B.length B = b)
    (h1 : s.write E a A.length A f = Outcome.returned s1)
    (h2 : s1.write E b B.length B f = Outcome.returned s2) :
    s.write E (a + b) (A ++ B).length (A ++ B) f = Outcome.returned s2 ∧
    (s2.m_buffer.drop s.size).take (a + b)
      = slices_text A.length A ++ slices_text B.length B ∧
    s1.m_buffer[s.size + a]? = some (Char.ofNat 0) ∧
    (s2.m_buffer.drop (s.size + a)).take b = slices_text B.length B ∧
    s2.m_buffer[s2.size]? = some (Char.ofNat 0) ∧
    s2.size = s.size + (a + b) := by
  obtain ⟨_, _, buf1, hm1, hcur1, rfl⟩ := write_returned_inv h1
  obtain ⟨hc2, _, buf2, hm2, hcur2, rfl⟩ := write_returned_inv h2
  have hnl : newline_text E f = [] := by simp [newline_text, hf]
  have hlA : (slices_text A.length A).length = a := by rw [slices_text_length, hA]
  have hlB : (slices_text B.length B).length = b := by rw [slices_text_length, hB]
  have hwA : written_text E A.length A f = slices_text A.length A ++ [Char.ofNat 0] := by
    simp [written_text, hnl]
  have hwB : written_text E B.length B f = slices_text B.length B ++ [Char.ofNat 0] := by
    simp [written_text, hnl]
  have hwAB : written_text E (A ++ B).length (A ++ B) f
      = slices_text A.length A ++ (slices_text B.length B ++ [Char.ofNat 0]) := by
    rw [written_text, slices_text_all_append, hnl]
    simp
  have hsAB : slices_length (A ++ B).length (A ++ B) = a + b := by
    rw [← slices_text_length, slices_text_all_append, List.length_append, hlA, hlB]
  -- the length after the first call
  have hadd1 : size_add E s.m_len a = s.m_len + a := by
    rw [hwA] at hcur1
    simp only [List.length_append, List.length_singleton, hlA] at hcur1
    omega
  simp only [sink_after, hadd1] at hm2 hcur2 hc2 ⊢
  have hadd2 : size_add E (s.m_len + a) b = s.m_len + a + b := by
    rw [hwB] at hcur2
    simp only [List.length_append, List.length_singleton, hlB] at hcur2
    omega
  have hadd : size_add E s.m_len (a + b) = s.m_len + a + b := by
    rw [← hadd2]
    unfold size_add
    rw [Nat.add_assoc]
  -- the stores of the single call are those of the two calls
  have hle1 := memcpy_le hm1
  rw [hwA] at hm1 hle1
  simp only [List.length_append, List.length_singleton, hlA] at hle1
  have hmA : memcpy s.m_buffer s.m_len (slices_text A.length A)
      = some (s.m_buffer.take s.m_len ++ slices_text A.length A
          ++ s.m_buffer.drop (s.m_len + (slices_text A.length A).length)) := by
    unfold memcpy
    rw [if_pos (by rw [hlA]; omega)]
  have hterm := memcpy_append [Char.ofNat 0] hmA
  rw [hm1, hlA] at hterm
  have hover := memcpy_overwrite (slices_text B.length B ++ [Char.ofNat 0]) hterm
    (by simp)
  have hmAB := memcpy_append (slices_text B.length B ++ [Char.ofNat 0]) hmA
  rw [hlA, ← hover] at hmAB
  rw [hwB] at hm2
  rw [hm2] at hmAB
  have hreq : requiredSize E s (a + b) f
      = requiredSize E { s with m_buffer := buf1, m_len := s.m_len + a } b f := by
    rw [requiredSize_eq, requiredSize_eq]
    simp only [Nat.add_assoc]
  unfold c_string_sink.size
  simp only []
  refine ⟨?_, ?_, ?_, ?_, ?_, ?_⟩
  · rw [write_eq, if_neg (by rw [hreq]; exact hc2), if_pos (Nat.le_refl _), hwAB, ← hmAB]
    simp only []
    rw [if_pos (by
      simp only [List.length_append, List.length_singleton, hlA, hlB, hadd]
      omega)]
    simp only [sink_after, hadd, hadd2]
  · have hd := memcpy_drop hmAB.symm
    rw [hd, ← List.append_assoc, List.append_assoc _ [Char.ofNat 0]]
    have : a + b = (slices_text A.length A ++ slices_text B.length B).length := by
      simp [hlA, hlB]
    rw [this, List.take_left]
  · have := memcpy_getElem?_inside hm1 a (by simp [hlA])
    rw [this, ← hlA]
    simp
  · have hd := memcpy_drop hm2
    rw [hd, List.append_assoc, ← hlB, List.take_left]
  · have := memcpy_getElem?_inside hm2 b (by simp [hlB])
    rw [hadd2, this, ← hlB]
    simp
  · rw [hadd2, Nat.add_assoc]

/-- Witness of C9: `"foo"` then `"bar"` into an empty sink of seven elements give
`"foobar"`, the terminator at offset 6 and `size() = 6`, as the single write of
`"foo"`, `"bar"` does. -/
theorem sequential_writes_append_witness :
    (c_string_sink.ctor 7 "???????".toList).write ⟨64, 1, ['\n']⟩ 3 1 [⟨"foo".toList⟩] 0
      = Outcome.returned ⟨7, 3, "foo\x00???".toList⟩ ∧
    (⟨7, 3, "foo\x00???".toList⟩ : c_string_sink).write ⟨64, 1, ['\n']⟩ 3 1
        [⟨"bar".toList⟩] 0
      = Outcome.returned ⟨7, 6, "foobar\x00".toList⟩ ∧
    (c_string_sink.ctor 7 "???????".toList).write ⟨64, 1, ['\n']⟩ (3 + 3)
        ([⟨"foo".toList⟩] ++ [⟨"bar".toList⟩] : List ff_string_slice_t).length
        ([⟨"foo".toList⟩] ++ [⟨"bar".toList⟩]) 0
      = Outcome.returned ⟨7, 6, "foobar\x00".toList⟩ ∧
    "foobar\x00".toList[(⟨7, 6, "foobar\x00".toList⟩ : c_string_sink).size]?
      = some (Char.ofNat 0) :=
  ⟨by decide, by decide,
   (sequential_writes_append ⟨64, 1, ['\n']⟩ (c_string_sink.ctor 7 "???????".toList)
      ⟨7, 3, "foo\x00???".toList⟩ ⟨7, 6, "foobar\x00".toList⟩ 3 3 [⟨"foo".toList⟩]
      [⟨"bar".toList⟩] 0 (by decide) (by decide) (by decide) (by decide) (by decide)).1,
   by decide⟩

/-- C10, at the failing input, with a `size_t` of 32 bits: the sink is empty, of
capacity 8 over a buffer of 8 elements; the three slices have 1431655765
characters each, and the declared total 4294967295 is the sum of their lengths.
The required size wraps around to 0, the capacity check is passed, and the copy
of the first slice stores beyond the last element of the buffer. -/
theorem write_stores_past_capacity_after_wrap_around :
    (c_string_sink.ctor 8 "????????".toList).size
      ≤ (c_string_sink.ctor 8 "????????".toList).capacity ∧
    (c_string_sink.ctor 8 "????????".toList).m_buffer.length
      = (c_string_sink.ctor 8 "????????".toList).capacity ∧
    slices_length 3 (List.replicate 3 ⟨List.replicate 1431655765 'a'⟩) = 4294967295 ∧
    ¬ (requiredSize ⟨32, 1, ['\n']⟩ (c_string_sink.ctor 8 "????????".toList) 4294967295 0
        > (c_string_sink.ctor 8 "????????".toList).capacity) ∧
    (c_string_sink.ctor 8 "????????".toList).write ⟨32, 1, ['\n']⟩ 4294967295 3
        (List.replicate 3 ⟨List.replicate 1431655765 'a'⟩) 0
      = Outcome.undefined_behaviour := by
  have hsum : slices_length 3 (List.replicate 3 ⟨List.replicate 1431655765 'a'⟩)
      = 4294967295 := by
    rw [slices_length_replicate]
  have hnl : (newline_text ⟨32, 1, ['\n']⟩ 0).length = 0 := by decide
  have hreq : requiredSize ⟨32, 1, ['\n']⟩ (c_string_sink.ctor 8 "????????".toList)
      4294967295 0 = 0 := by
    rw [requiredSize_eq, hnl]
    decide
  have hc : ¬ (requiredSize ⟨32, 1, ['\n']⟩ (c_string_sink.ctor 8 "????????".toList)
      4294967295 0 > (c_string_sink.ctor 8 "????????".toList).m_capacity) := by
    rw [hreq]
    decide
  refine ⟨by decide, by decide, hsum, hc, ?_⟩
  apply write_undefined_of_no_room hc
  rw [hsum, hnl]
  decide

/-- C11. Unknown flag bits are ignored: for every sink, slice list and declared
total, two flag values for which the test `flags::ff_newLine & flags` has the
same result (they agree on the newline bit) make `write` end in the same way,
with the same sink; bits other than the newline bit never cause a rejection. -/
theorem write_ignores_other_flag_bits (E : Env) (s : c_string_sink) (T n : Nat)
    (rs : List ff_string_slice_t) (f1 f2 : Int)
    (h : Int.land E.ff_newLine f1 ≠ 0 ↔ Int.land E.ff_newLine f2 ≠ 0) :
    s.write E T n rs f1 = s.write E T n rs f2 := by
  apply write_congr_flags
  unfold newLineRequested
  by_cases h1 : Int.land E.ff_newLine f1 ≠ 0
  · rw [decide_eq_true h1, decide_eq_true (h.mp h1)]
  · rw [decide_eq_false h1, decide_eq_false (fun h2 => h1 (h.mpr h2))]

/-- Witness of C11: the flag values 1 and 7 (newline bit set, two further bits in
the second), and the values 0 and 6, with `flags::ff_newLine = 1`. -/
theorem write_ignores_other_flag_bits_witness :
    (c_string_sink.ctor 10 "xxxxxxxxxx".toList).write ⟨64, 1, ['\n']⟩ 2 1 [⟨"ab".toList⟩] 1
      = (c_string_sink.ctor 10 "xxxxxxxxxx".toList).write ⟨64, 1, ['\n']⟩ 2 1
          [⟨"ab".toList⟩] 7 ∧
    (c_string_sink.ctor 10 "xxxxxxxxxx".toList).write ⟨64, 1, ['\n']⟩ 2 1 [⟨"ab".toList⟩] 6
      = Outcome.returned ⟨10, 2, "ab\x00xxxxxxx".toList⟩ ∧
    (c_string_sink.ctor 10 "xxxxxxxxxx".toList).write ⟨64, 1, ['\n']⟩ 2 1 [⟨"ab".toList⟩] 0
      = (c_string_sink.ctor 10 "xxxxxxxxxx".toList).write ⟨64, 1, ['\n']⟩ 2 1
          [⟨"ab".toList⟩] 6 :=
  ⟨write_ignores_other_flag_bits ⟨64, 1, ['\n']⟩ (c_string_sink.ctor 10 "xxxxxxxxxx".toList)
      2 1 [⟨"ab".toList⟩] 1 7 (by decide),
   by decide,
   write_ignores_other_flag_bits ⟨64, 1, ['\n']⟩ (c_string_sink.ctor 10 "xxxxxxxxxx".toList)
      2 1 [⟨"ab".toList⟩] 0 6 (by decide)⟩

/-- C12. The length never decreases: for a sink and a call whose length and
declared total `T` are `size_t` values, `size()` is the same after a call that
failed with capacity-exceeded, it is greater by exactly `T` after a call that
returned, and so it is at least what it was after every call that comes back to
its caller. The sink left by a call that ends in the enforcement of the cursor
position has the length greater by `T` as well, when that sum is a `size_t`
value. -/
theorem size_never_decreases (E : Env) (s : c_string_sink) (T n : Nat)
    (rs : List ff_string_slice_t) (f : Int)
    (hL : s.size < 2 ^ E.size_bits) (hT : T < 2 ^ E.size_bits) :
    (∀ s1, s.write E T n rs f = Outcome.out_of_range s1 → s1.size = s.size) ∧
    (∀ s1, s.write E T n rs f = Outcome.returned s1 → s1.size = s.size + T) ∧
    (∀ s1, s.write E T n rs f = Outcome.returned s1 ∨
        s.write E T n rs f = Outcome.out_of_range s1 → s.size ≤ s1.size) ∧
    (∀ s1, s.write E T n rs f = Outcome.postcondition_violation s1 →
        s.size + T < 2 ^ E.size_bits → s1.size = s.size + T) := by
  unfold c_string_sink.size at *
  have hfail : ∀ s1, s.write E T n rs f = Outcome.out_of_range s1 → s1.m_len = s.m_len := by
    intro s1 h
    rw [(out_of_range_inv h).1]
  have hret : ∀ s1, s.write E T n rs f = Outcome.returned s1 → s1.m_len = s.m_len + T := by
    intro s1 h
    exact (write_returned_size h hL hT).1
  refine ⟨hfail, hret, ?_, ?_⟩
  · intro s1 h
    rcases h with h | h
    · rw [hret s1 h]
      exact Nat.le_add_right _ _
    · rw [hfail s1 h]
  · intro s1 h hfit
    obtain ⟨_, _, buf, _, _, rfl⟩ := write_violation_inv h
    unfold sink_after size_add
    exact Nat.mod_eq_of_lt hfit

/-- Witness of C12: `"bar"` appended to a sink of seven elements that holds
`"foo"` brings `size()` from 3 to 6. -/
theorem size_never_decreases_witness :
    (⟨7, 3, "foo\x00???".toList⟩ : c_string_sink).write ⟨64, 1, ['\n']⟩ 3 1
        [⟨"bar".toList⟩] 0
      = Outcome.returned ⟨7, 6, "foobar\x00".toList⟩ ∧
    (⟨7, 6, "foobar\x00".toList⟩ : c_string_sink).size
      = (⟨7, 3, "foo\x00???".toList⟩ : c_string_sink).size + 3 :=
  ⟨by decide,
   (size_never_decreases ⟨64, 1, ['\n']⟩ ⟨7, 3, "foo\x00???".toList⟩ 3 1 [⟨"bar".toList⟩] 0
      (by decide) (by decide)).2.1 ⟨7, 6, "foobar\x00".toList⟩ (by decide)⟩

/-- C13, at two failing inputs, with a `size_t` of 32 bits and capacity 8. First,
a sink that holds `"abc"` and four slices of 1073741823 characters each, their
true total 4294967292 declared: the required capacity is 4294967296, the
computed one wraps around to 0, and instead of failing with capacity-exceeded
the call stores beyond the buffer. Second, an empty sink, no slice and the
declared total 4294967295: the required capacity is again 4294967296, no
capacity-exceeded failure is reported, the terminator is stored and the length
has become 4294967295 when the enforcement of the cursor position ends the
call. -/
theorem write_passes_check_after_wrap_around :
    ((⟨8, 3, "abc\x00????".toList⟩ : c_string_sink).size + 4294967292 + 0 + 1
      > (⟨8, 3, "abc\x00????".toList⟩ : c_string_sink).capacity) ∧
    slices_length 4 (List.replicate 4 ⟨List.replicate 1073741823 'a'⟩) = 4294967292 ∧
    (⟨8, 3, "abc\x00????".toList⟩ : c_string_sink).write ⟨32, 1, ['\n']⟩ 4294967292 4
        (List.replicate 4 ⟨List.replicate 1073741823 'a'⟩) 0
      = Outcome.undefined_behaviour ∧
    ((c_string_sink.ctor 8 "????????".toList).size + 4294967295 + 0 + 1
      > (c_string_sink.ctor 8 "????????".toList).capacity) ∧
    (c_string_sink.ctor 8 "????????".toList).write ⟨32, 1, ['\n']⟩ 4294967295 0 [] 0
      = Outcome.postcondition_violation ⟨8, 4294967295, "\x00???????".toList⟩ := by
  have hsum : slices_length 4 (List.replicate 4 ⟨List.replicate 1073741823 'a'⟩)
      = 4294967292 := by
    rw [slices_length_replicate]
  have hnl : (newline_text ⟨32, 1, ['\n']⟩ 0).length = 0 := by decide
  have hreq : requiredSize ⟨32, 1, ['\n']⟩ ⟨8, 3, "abc\x00????".toList⟩ 4294967292 0 = 0 := by
    rw [requiredSize_eq, hnl]
    decide
  have hc : ¬ (requiredSize ⟨32, 1, ['\n']⟩ ⟨8, 3, "abc\x00????".toList⟩ 4294967292 0
      > (⟨8, 3, "abc\x00????".toList⟩ : c_string_sink).m_capacity) := by
    rw [hreq]
    decide
  refine ⟨by decide, hsum, ?_, by decide, by decide⟩
  apply write_undefined_of_no_room hc
  rw [hsum, hnl]
  decide

/-- C14. Frame of a write: when the declared total `T` is the sum of the slice
lengths, the sink that a call leaves — in particular the sink of a call that
returned — has the characters it had at the indices `[0, L)`, where `L` was the
length before the call, and at the indices greater than `L + T`, or than
`L + T +` the newline length when the newline flag is set; the buffer has as
many elements as before and `capacity()` is unchanged. -/
theorem write_frame (E : Env) (s : c_string_sink) (T n : Nat)
    (rs : List ff_string_slice_t) (f : Int) (s1 : c_string_sink)
    (hsum : slices_length n rs = T)
    (h : (s.write E T n rs f).sink = some s1) :
    (∀ i, i < s.size → s1.m_buffer[i]? = s.m_buffer[i]?) ∧
    (∀ i, s.size + T
        + (if newLineRequested E f then (fastformat_getNewlineForPlatform E).len else 0) < i →
      s1.m_buffer[i]? = s.m_buffer[i]?) ∧
    s1.capacity = s.capacity ∧ s1.m_buffer.length = s.m_buffer.length := by
  rw [← newline_text_length]
  unfold c_string_sink.size c_string_sink.capacity
  by_cases hc : requiredSize E s T f > s.m_capacity
  · rw [write_eq, if_pos hc] at h
    simp only [Outcome.sink, Option.some.injEq] at h
    subst h
    exact ⟨fun _ _ => rfl, fun _ _ => rfl, rfl, rfl⟩
  · obtain ⟨_, buf, hm, rfl⟩ := write_sink_inv hc h
    have hlen : (written_text E n rs f).length = T + (newline_text E f).length + 1 := by
      rw [written_text_length, hsum]
    unfold sink_after
    refine ⟨?_, ?_, rfl, memcpy_length hm⟩
    · intro i hi
      exact memcpy_getElem?_outside hm i (Or.inl hi)
    · intro i hi
      exact memcpy_getElem?_outside hm i (Or.inr (by rw [hlen]; omega))

/-- Witness of C14: `"cd"` appended to a sink of eight elements that holds
`"ab"`; the elements 0, 1 and 5, 6, 7 keep their values. -/
theorem write_frame_witness :
    (⟨8, 2, "ab\x00uvwxy".toList⟩ : c_string_sink).write ⟨64, 1, ['\n']⟩ 2 1
        [⟨"cd".toList⟩] 0
      = Outcome.returned ⟨8, 4, "abcd\x00wxy".toList⟩ ∧
    ((∀ i, i < (⟨8, 2, "ab\x00uvwxy".toList⟩ : c_string_sink).size →
        "abcd\x00wxy".toList[i]? = "ab\x00uvwxy".toList[i]?) ∧
      (∀ i, (⟨8, 2, "ab\x00uvwxy".toList⟩ : c_string_sink).size + 2
          + (if newLineRequested ⟨64, 1, ['\n']⟩ 0
              then (fastformat_getNewlineForPlatform ⟨64, 1, ['\n']⟩).len else 0) < i →
        "abcd\x00wxy".toList[i]? = "ab\x00uvwxy".toList[i]?) ∧
      (⟨8, 4, "abcd\x00wxy".toList⟩ : c_string_sink).capacity
        = (⟨8, 2, "ab\x00uvwxy".toList⟩ : c_string_sink).capacity ∧
      "abcd\x00wxy".toList.length = "ab\x00uvwxy".toList.length) :=
  ⟨by decide,
   write_frame ⟨64, 1, ['\n']⟩ ⟨8, 2, "ab\x00uvwxy".toList⟩ 2 1 [⟨"cd".toList⟩] 0
     ⟨8, 4, "abcd\x00wxy".toList⟩ (by decide) (by decide)⟩

/-- C15. The cursor check detects a wrong declared total: for a call without the
newline flag on a buffer with a `size_t` number of elements, with a declared
total `T` that is a `size_t` value, which passes the capacity check and leaves
a sink `s1`, the cursor (advanced from `buffer + size()` over the slices and the
terminator) is at `buffer + s1.size() + 1` if and only if `T` is the sum of the
lengths of the `numResults` slices; accordingly the call returns if and only if
`T` is that sum, and ends in the enforcement if and only if it is not. -/
theorem cursor_check_detects_wrong_total (E : Env) (s : c_string_sink) (T n : Nat)
    (rs : List ff_string_slice_t) (f : Int) (s1 : c_string_sink)
    (hf : newLineRequested E f = false)
    (hsz : s.m_buffer.length < 2 ^ E.size_bits) (hT : T < 2 ^ E.size_bits)
    (hchk : ¬ requiredSize E s T f > s.capacity)
    (h : (s.write E T n rs f).sink = some s1) :
    (s.size + slices_length n rs + 1 = s1.size + 1 ↔ T = slices_length n rs) ∧
    (s.write E T n rs f = Outcome.returned s1 ↔ T = slices_length n rs) ∧
    (s.write E T n rs f = Outcome.postcondition_violation s1 ↔ T ≠ slices_length n rs) := by
  unfold c_string_sink.capacity at hchk
  unfold c_string_sink.size
  obtain ⟨hn, buf, hm, rfl⟩ := write_sink_inv hchk h
  have hnl : (newline_text E f).length = 0 := by simp [newline_text, hf]
  have hwl : (written_text E n rs f).length = slices_length n rs + 1 := by
    rw [written_text_length, hnl]
  have hle := memcpy_le hm
  rw [hwl] at hle
  have hpos : 0 < 2 ^ E.size_bits := Nat.pos_of_ne_zero (by positivity)
  have key : s.m_len + slices_length n rs + 1 = size_add E s.m_len T + 1 ↔
      T = slices_length n rs := by
    unfold size_add
    constructor
    · intro hcur
      rcases Nat.lt_or_ge (s.m_len + T) (2 ^ E.size_bits) with hw | hw
      · rw [Nat.mod_eq_of_lt hw] at hcur
        omega
      · exfalso
        have h1 : (s.m_len + T) % 2 ^ E.size_bits = s.m_len + T - 2 ^ E.size_bits := by
          rw [Nat.mod_eq_sub_mod hw, Nat.mod_eq_of_lt (by omega)]
        omega
    · intro hT2
      rw [Nat.mod_eq_of_lt (by omega)]
      omega
  have hw : s.write E T n rs f
      = if s.m_len + slices_length n rs + 1 = size_add E s.m_len T + 1 then
          Outcome.returned (sink_after E s T buf)
        else Outcome.postcondition_violation (sink_after E s T buf) := by
    rw [write_eq, if_neg hchk, if_pos hn, hm, hwl]
    rfl
  refine ⟨key, ?_, ?_⟩
  · rw [hw, ← key]
    by_cases hcur : s.m_len + slices_length n rs + 1 = size_add E s.m_len T + 1
    · simp [hcur]
    · simp [hcur]
  · rw [hw, Ne, ← key]
    by_cases hcur : s.m_len + slices_length n rs + 1 = size_add E s.m_len T + 1
    · simp [hcur]
    · simp [hcur]

/-- Witness of C15: `"abc"` declared as two characters ends in the enforcement,
`"ab"` declared as two characters returns. -/
theorem cursor_check_detects_wrong_total_witness :
    (c_string_sink.ctor 10 "xxxxxxxxxx".toList).write ⟨64, 1, ['\n']⟩ 2 1
        [⟨"abc".toList⟩] 0
      = Outcome.postcondition_violation ⟨10, 2, "abc\x00xxxxxx".toList⟩ ∧
    2 ≠ slices_length 1 [⟨"abc".toList⟩] ∧
    (c_string_sink.ctor 10 "xxxxxxxxxx".toList).write ⟨64, 1, ['\n']⟩ 2 1
        [⟨"ab".toList⟩] 0
      = Outcome.returned ⟨10, 2, "ab\x00xxxxxxx".toList⟩ :=
  ⟨by decide,
   (cursor_check_detects_wrong_total ⟨64, 1, ['\n']⟩ (c_string_sink.ctor 10 "xxxxxxxxxx".toList)
      2 1 [⟨"abc".toList⟩] 0 ⟨10, 2, "abc\x00xxxxxx".toList⟩ (by decide) (by decide)
      (by decide) (by decide) (by decide)).2.2.mp (by decide),
   (cursor_check_detects_wrong_total ⟨64, 1, ['\n']⟩ (c_string_sink.ctor 10 "xxxxxxxxxx".toList)
      2 1 [⟨"ab".toList⟩] 0 ⟨10, 2, "ab\x00xxxxxxx".toList⟩ (by decide) (by decide)
      (by decide) (by decide) (by decide)).2.1.mpr (by decide)⟩

/-- C16. A trailing newline does not survive the next write. Let a write `W1` with
the newline flag set and content `A` (declared total `a`, the sum of its slice
lengths) pass the capacity check and leave the sink `s1`, and let a write `W2`
with content `B` (declared total `b`, likewise) on `s1` pass the capacity check
and leave the sink `s2`, the buffer having a `size_t` number of elements. Then
`s1.size()` is `L + a`, the index at which the newline of `W1` begins; `W2`
copies `B` from that index on; the buffer of `s2` read from index 0 is the
previous content, `A`, `B`, then the newline of `W2` if its flag is set, then
the terminator: the newline of `W1` is not retained between `A` and `B`. -/
theorem trailing_newline_is_overwritten (E : Env) (s s1 s2 : c_string_sink) (a b nA nB : Nat)
    (A B : List ff_string_slice_t) (f1 f2 : Int)
    (hf1 : newLineRequested E f1 = true)
    (hA : slices_length nA A = a) (hB : slices_length nB B = b)
    (hsz : s.m_buffer.length < 2 ^ E.size_bits)
    (hchk1 : ¬ requiredSize E s a f1 > s.capacity)
    (h1 : (s.write E a nA A f1).sink = some s1)
    (hchk2 : ¬ requiredSize E s1 b f2 > s1.capacity)
    (h2 : (s1.write E b nB B f2).sink = some s2) :
    s1.size = s.size + a ∧
    (s1.m_buffer.drop s1.size).take (fastformat_getNewlineForPlatform E).len
      = (fastformat_getNewlineForPlatform E).ptr ∧
    (s2.m_buffer.drop s1.size).take b = slices_text nB B ∧
    s2.m_buffer.take (s.size + a + b)
      = s.m_buffer.take s.size ++ slices_text nA A ++ slices_text nB B ∧
    (s2.m_buffer.drop (s.size + a + b)).take ((newline_text E f2).length + 1)
      = newline_text E f2 ++ [Char.ofNat 0] ∧
    s2.size = s.size + a + b := by
  unfold c_string_sink.capacity at hchk1 hchk2
  unfold c_string_sink.size fastformat_getNewlineForPlatform ff_string_slice_t.len
  obtain ⟨_, buf1, hm1, rfl⟩ := write_sink_inv hchk1 h1
  obtain ⟨_, buf2, hm2, rfl⟩ := write_sink_inv hchk2 h2
  have hadd1 := write_sink_size hA hsz hm1
  have hl1 := memcpy_length hm1
  simp only [sink_after, hadd1] at hm2 ⊢
  have hadd2 : size_add E (s.m_len + a) b = s.m_len + a + b := by
    have hle := memcpy_le hm2
    rw [written_text_length, hB, hl1] at hle
    unfold size_add
    exact Nat.mod_eq_of_lt (by omega)
  have hnl : newline_text E f1 = E.newline := by simp [newline_text, hf1]
  have hlA : (slices_text nA A).length = a := by rw [slices_text_length, hA]
  have hlB : (slices_text nB B).length = b := by rw [slices_text_length, hB]
  have hw1 : written_text E nA A f1 = slices_text nA A ++ E.newline ++ [Char.ofNat 0] := by
    rw [written_text, hnl]
  have hw2 : written_text E nB B f2
      = slices_text nB B ++ newline_text E f2 ++ [Char.ofNat 0] := rfl
  rw [hw1] at hm1
  rw [hw2] at hm2
  -- the buffer up to the end of `A` after the first call, and after the second
  have htake1 : buf1.take (s.m_len + a) = s.m_buffer.take s.m_len ++ slices_text nA A := by
    have := memcpy_drop_take (by rw [List.append_assoc] at hm1; exact hm1)
    rw [List.take_add, memcpy_take hm1, ← hlA, this]
  have hBat : (buf2.drop (s.m_len + a)).take b = slices_text nB B := by
    have := memcpy_drop_take (by rw [List.append_assoc] at hm2; exact hm2)
    rw [← hlB, this]
  refine ⟨trivial, ?_, hBat, ?_, ?_, hadd2⟩
  · have := memcpy_drop_drop_take hm1
    rw [hlA] at this
    exact this
  · rw [List.take_add, memcpy_take hm2, htake1, hBat]
  · have e : (newline_text E f2).length + 1
        = (newline_text E f2 ++ [Char.ofNat 0]).length := by simp
    rw [← List.drop_drop, memcpy_drop hm2, List.append_assoc, List.append_assoc, ← hlB,
      List.drop_left, ← List.append_assoc, e, List.take_left]

/-- Witness of C16: `"ab"` with the newline flag, then `"cd"` without it, into an
empty sink of ten elements: the buffer reads `"abcd"`, not `"ab\ncd"`. -/
theorem trailing_newline_is_overwritten_witness :
    ((c_string_sink.ctor 10 "xxxxxxxxxx".toList).write ⟨64, 1, ['\n']⟩ 2 1
        [⟨"ab".toList⟩] 1).sink = some ⟨10, 2, "ab\n\x00xxxxxx".toList⟩ ∧
    ((⟨10, 2, "ab\n\x00xxxxxx".toList⟩ : c_string_sink).write ⟨64, 1, ['\n']⟩ 2 1
        [⟨"cd".toList⟩] 0).sink = some ⟨10, 4, "abcd\x00xxxxx".toList⟩ ∧
    "abcd\x00xxxxx".toList.take ((c_string_sink.ctor 10 "xxxxxxxxxx".toList).size + 2 + 2)
      = "xxxxxxxxxx".toList.take (c_string_sink.ctor 10 "xxxxxxxxxx".toList).size
        ++ slices_text 1 [⟨"ab".toList⟩] ++ slices_text 1 [⟨"cd".toList⟩] :=
  ⟨by decide, by decide,
   (trailing_newline_is_overwritten ⟨64, 1, ['\n']⟩ (c_string_sink.ctor 10 "xxxxxxxxxx".toList)
      ⟨10, 2, "ab\n\x00xxxxxx".toList⟩ ⟨10, 4, "abcd\x00xxxxx".toList⟩ 2 2 1 1
      [⟨"ab".toList⟩] [⟨"cd".toList⟩] 1 0 (by decide) (by decide) (by decide) (by decide)
      (by decide) (by decide) (by decide) (by decide)).2.2.2.1⟩

/-- C17. The action shim is the member function: for every sink and every
argument tuple, `fmt_slices(sink, flags, cchTotal, numResults, results)` ends as
`sink.write(cchTotal, numResults, results, flags)` does, with the same failure
or the same resulting sink; `flags` and `cchTotal` reach the parameters of the
same names. With `cchTotal = 4` and `numResults = 2` the shim writes the two
slices `"ab"`, `"cd"`. -/
theorem fmt_slices_is_write :
    (∀ (E : Env) (sink : c_string_sink) (flags : Int) (cchTotal numResults : Nat)
        (results : List ff_string_slice_t),
      fmt_slices E sink flags cchTotal numResults results
        = sink.write E cchTotal numResults results flags) ∧
    fmt_slices ⟨64, 1, ['\n']⟩ (c_string_sink.ctor 5 "?????".toList) 0 4 2
        [⟨"ab".toList⟩, ⟨"cd".toList⟩]
      = Outcome.returned ⟨5, 4, "abcd\x00".toList⟩ :=
  ⟨fun _ _ _ _ _ _ => rfl, by decide⟩
